import Mathlib

/-!
Verification development for the palette-coordinate module (`palettize.py`).

The source is embedded shallowly over exact real arithmetic:

* a point is a list of reals; a layer is a list of point indices;
* Python's float `**` is modelled by `pypow`: a negative base with a
  non-integer exponent has no real value (the source's numeric-domain
  failure), and `0.0` raised to a negative power is likewise an error, so
  `scale` returns an `Option`;
* the result dictionary `palette_coords` is modelled as a function
  `ℕ → Option (ℝ × ℝ × ℝ)` built by successive updates, which reproduces
  the dict's last-write-wins behaviour;
* `math.fsum` (exact float summation) becomes exact list summation;
* the three `palettize*` functions guard their inputs up front
  (non-empty points, uniform dimension, in-range indices) and return
  `none` where the source would raise; the source produces no partial
  output on such inputs either, so the observable behaviour agrees;
* the loop over layers shared verbatim by the three source functions is
  factored into `runLayers`, parameterised by the variant's projection.
-/

namespace Viz

open Classical

abbrev Point : Type := List ℝ

/-- Embedding of `reverse_normalize`: every coordinate `f` becomes `1 - f`. -/
noncomputable def reverse_normalize (points : List Point) : List Point :=
  points.map (fun point => point.map (fun f => 1 - f))

/-- Python float `**`. A negative base with a non-integer exponent does not
produce a real number (the source's numeric-domain failure), and `0.0` to a
negative power is a division error; otherwise the value is the real power. -/
noncomputable def pypow (f factor : ℝ) : Option ℝ :=
  if f < 0 ∧ ¬∃ n : ℤ, factor = (n : ℝ) then none
  else if f = 0 ∧ factor < 0 then none
  else some (f ^ factor)

/-- One row of `scale`: the comprehension `[f**factor for f in point]`,
propagating a domain failure of any coordinate. -/
noncomputable def scaleRow (factor : ℝ) : List ℝ → Option (List ℝ)
  | [] => some []
  | f :: fs => (pypow f factor).bind fun g => (scaleRow factor fs).map fun gs => g :: gs

/-- Embedding of `scale`: every coordinate `f` becomes `f ** factor`. -/
noncomputable def scale (points : List Point) (factor : ℝ) : Option (List Point) :=
  match points with
  | [] => some []
  | p :: ps => (scaleRow factor p).bind fun q => (scale ps factor).map fun qs => q :: qs

/-- Embedding of the axis set `S`:
`[[cos t, sin t] for t in [2 pi i / m for i in range m]]`. -/
noncomputable def axes (m : ℕ) : List (ℝ × ℝ) :=
  ((List.range m).map (fun (i : ℕ) => 2 * Real.pi * ((i : ℝ) / (m : ℝ)))).map
    (fun t => (Real.cos t, Real.sin t))

/-- The normalized projection of one preprocessed point `f` against axes `S`:
`u = fsum(f i * S i .1) / fsum f` and likewise for `v` when `fsum f > 0`,
else `(0, 0)`.  The source's `f[i] * t[0] for i, t in enumerate(S)` is the
pointwise product of `f` and `S`, written as `zipWith` (points have the same
length as `S` under the callers' guards). -/
noncomputable def projNorm (S : List (ℝ × ℝ)) (f : List ℝ) : ℝ × ℝ :=
  let fsum := f.sum
  if 0 < fsum then
    ((List.zipWith (fun fi t => fi * t.1) f S).sum / fsum,
     (List.zipWith (fun fi t => fi * t.2) f S).sum / fsum)
  else (0, 0)

/-- The reverse-polar projection: the same weighted sums with no
normalization by the coordinate sum and no branch. -/
noncomputable def projPolar (S : List (ℝ × ℝ)) (f : List ℝ) : ℝ × ℝ :=
  ((List.zipWith (fun fi t => fi * t.1) f S).sum,
   (List.zipWith (fun fi t => fi * t.2) f S).sum)

/-- The logistic remap applied to one value: the body of the comprehension in
`logistic_map`, with `p = sigma(-A/2)` and `q = sigma(A/2)` written exactly
as the source computes them. -/
noncomputable def logistic_remap (A v : ℝ) : ℝ :=
  let p := 1 / (1 + Real.exp (A / 2))
  let q := 1 / (1 + Real.exp (-A / 2))
  ((1 / (1 + Real.exp (-A * (v - 0.5)))) - p) / (q - p)

/-- Embedding of `logistic_map`: every coordinate is remapped through the
logistic rescaling with sharpness `A`. -/
noncomputable def logistic_map (points : List Point) (A : ℝ) : List Point :=
  let p := 1 / (1 + Real.exp (A / 2))
  let q := 1 / (1 + Real.exp (-A / 2))
  points.map (fun vec =>
    vec.map (fun v => ((1 / (1 + Real.exp (-A * (v - 0.5)))) - p) / (q - p)))

/-- The standard logistic function, used to state properties of the remap. -/
noncomputable def sigma (x : ℝ) : ℝ := 1 / (1 + Real.exp (-x))

/-- The mutable state of the layer walk: the two depth accumulators `wl` and
`wc`, the running point counter `count`, and the dictionary built so far. -/
structure PState where
  wl : ℝ
  wc : ℝ
  count : ℕ
  coords : ℕ → Option (ℝ × ℝ × ℝ)

/-- The test `count >= points_per_layer`.  `none` models
`points_per_layer = float('inf')` (the comparison is then never true). -/
def pplGE (ppl : Option ℝ) (c : ℕ) : Prop :=
  match ppl with
  | none => False
  | some r => r ≤ (c : ℝ)

/-- One iteration of the inner loop body shared by the three variants: write
`(u, v, w)` for `idx` into the dictionary (with `w` from the track selected
by `useWl`), increment the counter, and decrement `wc` with a counter reset
once the counter reaches `points_per_layer`. -/
noncomputable def procPoint (proj : List ℝ → ℝ × ℝ) (useWl : Bool) (ppl : Option ℝ)
    (zgap : ℝ) (points_ : List Point) (st : PState) (idx : ℕ) : PState :=
  let uv := proj (points_.getD idx [])
  let w := if useWl then st.wl else st.wc
  let coords' := Function.update st.coords idx (some (uv.1, uv.2, w))
  if pplGE ppl (st.count + 1) then
    ⟨st.wl, st.wc - zgap, 0, coords'⟩
  else
    ⟨st.wl, st.wc, st.count + 1, coords'⟩

/-- One iteration of the outer loop: process every index of one layer, then
decrement `wl`. -/
noncomputable def procLayer (proj : List ℝ → ℝ × ℝ) (useWl : Bool) (ppl : Option ℝ)
    (zgap : ℝ) (points_ : List Point) (st : PState) (layer : List ℕ) : PState :=
  let st' := layer.foldl (procPoint proj useWl ppl zgap points_) st
  ⟨st'.wl - zgap, st'.wc, st'.count, st'.coords⟩

/-- The full layer walk shared by the three `palettize*` functions. -/
noncomputable def runLayers (proj : List ℝ → ℝ × ℝ) (useWl : Bool) (ppl : Option ℝ)
    (zgap : ℝ) (points_ : List Point) (layers : List (List ℕ)) (st : PState) : PState :=
  layers.foldl (procLayer proj useWl ppl zgap points_) st

/-- The input guard of the three variants: a non-empty point collection of
uniform dimension, every layer entry a valid point index.  The source raises
(producing no output) on inputs outside this set. -/
def validInput (points : List Point) (layers : List (List ℕ)) : Prop :=
  points ≠ [] ∧ (∀ p ∈ points, p.length = points.headI.length) ∧
    ∀ layer ∈ layers, ∀ idx ∈ layer, idx < points.length

/-- Embedding of `palettize` (the normalized, default variant): scale each
coordinate by `f ** factor` with `factor = 2.0 if m > 3 else 1.0`, then walk
the layers projecting with `projNorm`. -/
noncomputable def palettize (points : List Point) (layers : List (List ℕ))
    (n_layers : ℕ) (zgap : ℝ) : Option (ℕ → Option (ℝ × ℝ × ℝ)) :=
  if validInput points layers then
    let m := points.headI.length
    let factor : ℝ := if 3 < m then 2 else 1
    (scale points factor).map (fun points_ =>
      let S := axes m
      let n_layers_orig := layers.length
      let ppl : Option ℝ :=
        if 0 < n_layers then some ((points_.length : ℝ) / (n_layers : ℝ)) else none
      let useWl : Bool := decide (n_layers = 0 ∨ n_layers_orig ≤ n_layers)
      (runLayers (projNorm S) useWl ppl zgap points_ layers ⟨0, 0, 0, fun _ => none⟩).coords)
  else none

/-- Embedding of `palettize_polar`: reverse every coordinate, scale with
`factor = 3.0 if m > 3 else 2.0`, then walk the layers projecting with the
unnormalized `projPolar`. -/
noncomputable def palettize_polar (points : List Point) (layers : List (List ℕ))
    (n_layers : ℕ) (zgap : ℝ) : Option (ℕ → Option (ℝ × ℝ × ℝ)) :=
  if validInput points layers then
    let m := points.headI.length
    let factor : ℝ := if 3 < m then 3 else 2
    (scale (reverse_normalize points) factor).map (fun points_ =>
      let S := axes m
      let n_layers_orig := layers.length
      let ppl : Option ℝ :=
        if 0 < n_layers then some ((points_.length : ℝ) / (n_layers : ℝ)) else none
      let useWl : Bool := decide (n_layers = 0 ∨ n_layers_orig ≤ n_layers)
      (runLayers (projPolar S) useWl ppl zgap points_ layers ⟨0, 0, 0, fun _ => none⟩).coords)
  else none

/-- Embedding of `palettize_logistic`: remap every coordinate through
`logistic_map` with `A = 15.0`, then walk the layers projecting with the same
normalized `projNorm` as the default variant. -/
noncomputable def palettize_logistic (points : List Point) (layers : List (List ℕ))
    (n_layers : ℕ) (zgap : ℝ) : Option (ℕ → Option (ℝ × ℝ × ℝ)) :=
  if validInput points layers then
    let points_ := logistic_map points 15
    let m := points_.headI.length
    let S := axes m
    let n_layers_orig := layers.length
    let ppl : Option ℝ :=
      if 0 < n_layers then some ((points_.length : ℝ) / (n_layers : ℝ)) else none
    let useWl : Bool := decide (n_layers = 0 ∨ n_layers_orig ≤ n_layers)
    some (runLayers (projNorm S) useWl ppl zgap points_ layers ⟨0, 0, 0, fun _ => none⟩).coords
  else none

/-! Specification-side machinery: the sequence of dictionary writes performed
by the walk, in walk order, used to state and prove key-set, last-write-wins
and depth-track properties. -/

/-- The writes performed by the inner loop on one list of indices, in order,
starting from accumulators `wl, wc` and counter `count`. -/
noncomputable def traceIdxs (proj : List ℝ → ℝ × ℝ) (useWl : Bool) (ppl : Option ℝ)
    (zgap : ℝ) (points_ : List Point) :
    List ℕ → ℝ → ℝ → ℕ → List (ℕ × ℝ × ℝ × ℝ)
  | [], _, _, _ => []
  | idx :: rest, wl, wc, count =>
    let uv := proj (points_.getD idx [])
    let w := if useWl then wl else wc
    (idx, uv.1, uv.2, w) ::
      (if pplGE ppl (count + 1) then
        traceIdxs proj useWl ppl zgap points_ rest wl (wc - zgap) 0
      else
        traceIdxs proj useWl ppl zgap points_ rest wl wc (count + 1))

/-- The `(wc, count)` accumulator pair after the inner loop runs over one
list of indices. -/
noncomputable def stepIdxs (ppl : Option ℝ) (zgap : ℝ) : List ℕ → ℝ → ℕ → ℝ × ℕ
  | [], wc, count => (wc, count)
  | _ :: rest, wc, count =>
    if pplGE ppl (count + 1) then stepIdxs ppl zgap rest (wc - zgap) 0
    else stepIdxs ppl zgap rest wc (count + 1)

/-- The writes performed by the whole walk, in walk order. -/
noncomputable def traceLayers (proj : List ℝ → ℝ × ℝ) (useWl : Bool) (ppl : Option ℝ)
    (zgap : ℝ) (points_ : List Point) :
    List (List ℕ) → ℝ → ℝ → ℕ → List (ℕ × ℝ × ℝ × ℝ)
  | [], _, _, _ => []
  | layer :: rest, wl, wc, count =>
    traceIdxs proj useWl ppl zgap points_ layer wl wc count ++
      traceLayers proj useWl ppl zgap points_ rest (wl - zgap)
        (stepIdxs ppl zgap layer wc count).1 (stepIdxs ppl zgap layer wc count).2

/-- The value of the last write for a key in a write sequence, if any.  This
is what a dictionary built by successive writes holds at that key. -/
def lastAssoc {α : Type} : List (ℕ × α) → ℕ → Option α
  | [], _ => none
  | e :: tr, idx =>
    match lastAssoc tr idx with
    | some c => some c
    | none => if e.1 = idx then some e.2 else none

/-- A write sequence layered over a base dictionary. -/
def overlay {α : Type} (tr : List (ℕ × α)) (f : ℕ → Option α) : ℕ → Option α :=
  fun idx =>
    match lastAssoc tr idx with
    | some c => some c
    | none => f idx

/-- The write trace of the normalized variant on valid input. -/
noncomputable def normTrace (points : List Point) (layers : List (List ℕ))
    (n_layers : ℕ) (zgap : ℝ) : List (ℕ × ℝ × ℝ × ℝ) :=
  traceLayers (projNorm (axes points.headI.length))
    (decide (n_layers = 0 ∨ layers.length ≤ n_layers))
    (if 0 < n_layers then some ((points.length : ℝ) / (n_layers : ℝ)) else none)
    zgap
    (points.map (List.map (fun f =>
      f ^ (if 3 < points.headI.length then (2 : ℝ) else 1))))
    layers 0 0 0

/-- The write trace of the reverse-polar variant on valid input. -/
noncomputable def polarTrace (points : List Point) (layers : List (List ℕ))
    (n_layers : ℕ) (zgap : ℝ) : List (ℕ × ℝ × ℝ × ℝ) :=
  traceLayers (projPolar (axes points.headI.length))
    (decide (n_layers = 0 ∨ layers.length ≤ n_layers))
    (if 0 < n_layers then some ((points.length : ℝ) / (n_layers : ℝ)) else none)
    zgap
    (points.map (List.map (fun f =>
      (1 - f) ^ (if 3 < points.headI.length then (3 : ℝ) else 2))))
    layers 0 0 0

/-- The write trace of the logistic variant on valid input. -/
noncomputable def logisticTrace (points : List Point) (layers : List (List ℕ))
    (n_layers : ℕ) (zgap : ℝ) : List (ℕ × ℝ × ℝ × ℝ) :=
  traceLayers (projNorm (axes points.headI.length))
    (decide (n_layers = 0 ∨ layers.length ≤ n_layers))
    (if 0 < n_layers then some ((points.length : ℝ) / (n_layers : ℝ)) else none)
    zgap
    (points.map (List.map (logistic_remap 15)))
    layers 0 0 0

/-- The count-indexed depth track as the specification describes it: the
number of decrements of `wc` after `k` more points have been processed with
the running counter currently at `c`; the counter is incremented once per
point, and reset to `0` exactly when it reaches or exceeds the threshold
`t = pointsPerLayer`, which is when the decrement happens. -/
noncomputable def decsFrom (t : ℝ) : ℕ → ℕ → ℕ
  | _, 0 => 0
  | c, k + 1 =>
    if t ≤ ((c + 1 : ℕ) : ℝ) then 1 + decsFrom t 0 k else decsFrom t (c + 1) k

/-! Helper lemmas: list indexing and summation. -/

lemma getD_map_of_lt {α β : Type} (f : α → β) (d : α) (d' : β) :
    ∀ (l : List α) (i : ℕ), i < l.length → (l.map f).getD i d' = f (l.getD i d) := by
  intro l
  induction l with
  | nil => intro i h; simp at h
  | cons a tl ih =>
    intro i h
    cases i with
    | zero => rfl
    | succ i => simpa using ih i (by simpa using h)

lemma getD_mem {α : Type} (d : α) :
    ∀ (l : List α) (i : ℕ), i < l.length → l.getD i d ∈ l := by
  intro l
  induction l with
  | nil => intro i h; simp at h
  | cons a tl ih =>
    intro i h
    cases i with
    | zero => exact List.mem_cons_self a tl
    | succ i => exact List.mem_cons_of_mem a (ih i (by simpa using h))

lemma zipWith_sum_eq_range (k : ℝ → (ℝ × ℝ) → ℝ) :
    ∀ (l : List ℝ) (h : ℕ → ℝ × ℝ),
      (List.zipWith k l ((List.range l.length).map h)).sum
        = ((List.range l.length).map (fun i => k (l.getD i 0) (h i))).sum := by
  intro l
  induction l with
  | nil => intro h; simp
  | cons a tl ih =>
    intro h
    have hr : List.range (tl.length + 1) = 0 :: (List.range tl.length).map Nat.succ :=
      List.range_succ_eq_map tl.length
    simp only [List.length_cons, hr, List.map_cons, List.map_map, List.zipWith_cons_cons,
      List.sum_cons, List.getD_cons_zero, Function.comp_def, Nat.succ_eq_add_one]
    rw [ih (fun i => h (i + 1))]
    simp [List.getD_cons_succ]

lemma sum_map_mul_c (c : ℝ) :
    ∀ l : List ℝ, (l.map (fun x => c * x)).sum = c * l.sum := by
  intro l
  induction l with
  | nil => simp
  | cons a tl ih => simp [ih]; ring

lemma zipWith_fst_map_mul (c : ℝ) :
    ∀ (g : List ℝ) (S : List (ℝ × ℝ)),
      (List.zipWith (fun fi t => fi * t.1) (g.map (fun x => c * x)) S).sum
        = c * (List.zipWith (fun fi t => fi * t.1) g S).sum := by
  intro g
  induction g with
  | nil => intro S; simp
  | cons a tl ih =>
    intro S
    cases S with
    | nil => simp
    | cons s S => simp [ih]; ring

lemma zipWith_snd_map_mul (c : ℝ) :
    ∀ (g : List ℝ) (S : List (ℝ × ℝ)),
      (List.zipWith (fun fi t => fi * t.2) (g.map (fun x => c * x)) S).sum
        = c * (List.zipWith (fun fi t => fi * t.2) g S).sum := by
  intro g
  induction g with
  | nil => intro S; simp
  | cons a tl ih =>
    intro S
    cases S with
    | nil => simp
    | cons s S => simp [ih]; ring

/-! Helper lemmas: `pypow` and `scale` on integer-valued exponents. -/

lemma pypow_of_natCast (f c : ℝ) (n : ℕ) (hc : c = (n : ℝ)) :
    pypow f c = some (f ^ c) := by
  have h1 : ¬(f < 0 ∧ ¬∃ k : ℤ, c = (k : ℝ)) := by
    rintro ⟨-, hno⟩
    exact hno ⟨(n : ℤ), by rw [hc]; push_cast; rfl⟩
  have h2 : ¬(f = 0 ∧ c < 0) := by
    rintro ⟨-, hneg⟩
    rw [hc] at hneg
    exact absurd hneg (not_lt.mpr (Nat.cast_nonneg n))
  simp only [pypow]
  rw [if_neg h1, if_neg h2]

lemma scaleRow_of_natCast (c : ℝ) (n : ℕ) (hc : c = (n : ℝ)) :
    ∀ row : List ℝ, scaleRow c row = some (row.map (fun f => f ^ c)) := by
  intro row
  induction row with
  | nil => rfl
  | cons f fs ih =>
    simp only [scaleRow, pypow_of_natCast f c n hc, ih, Option.some_bind, Option.map_some',
      List.map_cons]

lemma scale_of_natCast (c : ℝ) (n : ℕ) (hc : c = (n : ℝ)) :
    ∀ points : List Point, scale points c = some (points.map (List.map (fun f => f ^ c))) := by
  intro points
  induction points with
  | nil => rfl
  | cons p ps ih =>
    simp only [scale, scaleRow_of_natCast c n hc, ih, Option.some_bind, Option.map_some',
      List.map_cons]

/-! Helper lemmas: `lastAssoc` and `overlay`. -/

lemma overlay_nil {α : Type} (f : ℕ → Option α) : overlay [] f = f := rfl

lemma overlay_cons {α : Type} (e : ℕ × α) (tr : List (ℕ × α)) (f : ℕ → Option α) :
    overlay (e :: tr) f = overlay tr (Function.update f e.1 (some e.2)) := by
  funext idx
  simp only [overlay, lastAssoc]
  cases h : lastAssoc tr idx with
  | some c => rfl
  | none =>
    by_cases hid : e.1 = idx
    · simp [hid, Function.update_apply]
    · simp [hid, Function.update_apply, Ne.symm hid]

lemma lastAssoc_append {α : Type} (t2 : List (ℕ × α)) :
    ∀ (t1 : List (ℕ × α)) (idx : ℕ),
      lastAssoc (t1 ++ t2) idx =
        match lastAssoc t2 idx with
        | some c => some c
        | none => lastAssoc t1 idx := by
  intro t1
  induction t1 with
  | nil =>
    intro idx
    simp only [List.nil_append, lastAssoc]
    cases lastAssoc t2 idx <;> rfl
  | cons e t1 ih =>
    intro idx
    simp only [List.cons_append, lastAssoc, List.append_eq, ih]
    cases lastAssoc t2 idx <;> cases lastAssoc t1 idx <;> rfl

lemma overlay_append {α : Type} (t1 t2 : List (ℕ × α)) (f : ℕ → Option α) :
    overlay (t1 ++ t2) f = overlay t2 (overlay t1 f) := by
  funext idx
  simp only [overlay, lastAssoc_append t2 t1 idx]
  cases lastAssoc t2 idx <;> cases lastAssoc t1 idx <;> rfl

lemma lastAssoc_mem {α : Type} :
    ∀ (tr : List (ℕ × α)) (idx : ℕ) (c : α), lastAssoc tr idx = some c → (idx, c) ∈ tr := by
  intro tr
  induction tr with
  | nil => intro idx c h; simp [lastAssoc] at h
  | cons e tr ih =>
    intro idx c h
    simp only [lastAssoc] at h
    cases he : lastAssoc tr idx with
    | some c' =>
      rw [he] at h
      exact List.mem_cons_of_mem e (ih idx c (he.trans h))
    | none =>
      rw [he] at h
      by_cases hid : e.1 = idx
      · rw [if_pos hid] at h
        have hc : e.2 = c := Option.some.inj h
        have he2 : e = (idx, c) := by rw [← hid, ← hc]
        rw [← he2]
        exact List.mem_cons_self e tr
      · rw [if_neg hid] at h
        simp at h

lemma lastAssoc_eq_none {α : Type} :
    ∀ (tr : List (ℕ × α)) (idx : ℕ), idx ∉ tr.map Prod.fst → lastAssoc tr idx = none := by
  intro tr
  induction tr with
  | nil => intro idx _; rfl
  | cons e tr ih =>
    intro idx h
    simp only [List.map_cons, List.mem_cons, not_or] at h
    simp only [lastAssoc, ih idx h.2]
    rw [if_neg (fun he => h.1 he.symm)]

lemma lastAssoc_isSome {α : Type} :
    ∀ (tr : List (ℕ × α)) (idx : ℕ), idx ∈ tr.map Prod.fst → ∃ c, lastAssoc tr idx = some c := by
  intro tr
  induction tr with
  | nil => intro idx h; simp at h
  | cons e tr ih =>
    intro idx h
    cases he : lastAssoc tr idx with
    | some c => exact ⟨c, by simp only [lastAssoc, he]⟩
    | none =>
      simp only [List.map_cons, List.mem_cons] at h
      have hid : e.1 = idx := by
        rcases h with h | h
        · exact h.symm
        · rcases ih idx h with ⟨c, hc⟩
          rw [hc] at he
          cases he
      exact ⟨e.2, by simp only [lastAssoc, he]; rw [if_pos hid]⟩

lemma lastAssoc_nodup {α : Type} :
    ∀ (tr : List (ℕ × α)), (tr.map Prod.fst).Nodup →
      ∀ (idx : ℕ) (c : α), (idx, c) ∈ tr → lastAssoc tr idx = some c := by
  intro tr
  induction tr with
  | nil => intro _ idx c h; simp at h
  | cons e tr ih =>
    intro hnd idx c h
    rw [List.map_cons, List.nodup_cons] at hnd
    rcases List.mem_cons.mp h with he | he
    · have hid : e.1 = idx := by rw [← he]
      have hnm : idx ∉ tr.map Prod.fst := by rw [← hid]; exact hnd.1
      simp only [lastAssoc, lastAssoc_eq_none tr idx hnm]
      rw [if_pos hid, ← he]
    · simp only [lastAssoc, ih hnd.2 idx c he]

/-! Helper lemmas: equations for the loop-step and trace functions. -/

section Bridge

variable (proj : List ℝ → ℝ × ℝ) (useWl : Bool) (ppl : Option ℝ) (zgap : ℝ)
  (points_ : List Point)

lemma procPoint_pos (st : PState) (idx : ℕ) (h : pplGE ppl (st.count + 1)) :
    procPoint proj useWl ppl zgap points_ st idx =
      ⟨st.wl, st.wc - zgap, 0,
        Function.update st.coords idx
          (some ((proj (points_.getD idx [])).1, (proj (points_.getD idx [])).2,
            if useWl then st.wl else st.wc))⟩ := by
  simp only [procPoint]
  rw [if_pos h]

lemma procPoint_neg (st : PState) (idx : ℕ) (h : ¬pplGE ppl (st.count + 1)) :
    procPoint proj useWl ppl zgap points_ st idx =
      ⟨st.wl, st.wc, st.count + 1,
        Function.update st.coords idx
          (some ((proj (points_.getD idx [])).1, (proj (points_.getD idx [])).2,
            if useWl then st.wl else st.wc))⟩ := by
  simp only [procPoint]
  rw [if_neg h]

lemma stepIdxs_cons_pos (idx : ℕ) (rest : List ℕ) (wc : ℝ) (c : ℕ) (h : pplGE ppl (c + 1)) :
    stepIdxs ppl zgap (idx :: rest) wc c = stepIdxs ppl zgap rest (wc - zgap) 0 := by
  simp only [stepIdxs]
  rw [if_pos h]

lemma stepIdxs_cons_neg (idx : ℕ) (rest : List ℕ) (wc : ℝ) (c : ℕ) (h : ¬pplGE ppl (c + 1)) :
    stepIdxs ppl zgap (idx :: rest) wc c = stepIdxs ppl zgap rest wc (c + 1) := by
  simp only [stepIdxs]
  rw [if_neg h]

lemma traceIdxs_cons_pos (idx : ℕ) (rest : List ℕ) (wl wc : ℝ) (c : ℕ)
    (h : pplGE ppl (c + 1)) :
    traceIdxs proj useWl ppl zgap points_ (idx :: rest) wl wc c =
      (idx, (proj (points_.getD idx [])).1, (proj (points_.getD idx [])).2,
        if useWl then wl else wc) ::
        traceIdxs proj useWl ppl zgap points_ rest wl (wc - zgap) 0 := by
  simp only [traceIdxs]
  rw [if_pos h]

lemma traceIdxs_cons_neg (idx : ℕ) (rest : List ℕ) (wl wc : ℝ) (c : ℕ)
    (h : ¬pplGE ppl (c + 1)) :
    traceIdxs proj useWl ppl zgap points_ (idx :: rest) wl wc c =
      (idx, (proj (points_.getD idx [])).1, (proj (points_.getD idx [])).2,
        if useWl then wl else wc) ::
        traceIdxs proj useWl ppl zgap points_ rest wl wc (c + 1) := by
  simp only [traceIdxs]
  rw [if_neg h]

lemma foldl_procPoint_eq :
    ∀ (layer : List ℕ) (st : PState),
      layer.foldl (procPoint proj useWl ppl zgap points_) st =
        ⟨st.wl, (stepIdxs ppl zgap layer st.wc st.count).1,
          (stepIdxs ppl zgap layer st.wc st.count).2,
          overlay (traceIdxs proj useWl ppl zgap points_ layer st.wl st.wc st.count)
            st.coords⟩ := by
  intro layer
  induction layer with
  | nil => intro st; rfl
  | cons idx rest ih =>
    intro st
    rw [List.foldl_cons]
    by_cases hc : pplGE ppl (st.count + 1)
    · rw [procPoint_pos proj useWl ppl zgap points_ st idx hc, ih,
        stepIdxs_cons_pos ppl zgap idx rest st.wc st.count hc,
        traceIdxs_cons_pos proj useWl ppl zgap points_ idx rest st.wl st.wc st.count hc,
        overlay_cons]
    · rw [procPoint_neg proj useWl ppl zgap points_ st idx hc, ih,
        stepIdxs_cons_neg ppl zgap idx rest st.wc st.count hc,
        traceIdxs_cons_neg proj useWl ppl zgap points_ idx rest st.wl st.wc st.count hc,
        overlay_cons]

lemma runLayers_coords :
    ∀ (layers : List (List ℕ)) (st : PState),
      (runLayers proj useWl ppl zgap points_ layers st).coords =
        overlay (traceLayers proj useWl ppl zgap points_ layers st.wl st.wc st.count)
          st.coords := by
  intro layers
  induction layers with
  | nil => intro st; rfl
  | cons layer rest ih =>
    intro st
    have hcons : runLayers proj useWl ppl zgap points_ (layer :: rest) st =
        runLayers proj useWl ppl zgap points_ rest
          (procLayer proj useWl ppl zgap points_ st layer) := rfl
    have hpl : procLayer proj useWl ppl zgap points_ st layer =
        ⟨st.wl - zgap, (stepIdxs ppl zgap layer st.wc st.count).1,
          (stepIdxs ppl zgap layer st.wc st.count).2,
          overlay (traceIdxs proj useWl ppl zgap points_ layer st.wl st.wc st.count)
            st.coords⟩ := by
      simp only [procLayer, foldl_procPoint_eq]
    rw [hcons, hpl, ih]
    simp only [traceLayers, overlay_append]

lemma traceIdxs_map_fst :
    ∀ (layer : List ℕ) (wl wc : ℝ) (c : ℕ),
      (traceIdxs proj useWl ppl zgap points_ layer wl wc c).map Prod.fst = layer := by
  intro layer
  induction layer with
  | nil => intro wl wc c; rfl
  | cons idx rest ih =>
    intro wl wc c
    by_cases hc : pplGE ppl (c + 1)
    · rw [traceIdxs_cons_pos proj useWl ppl zgap points_ idx rest wl wc c hc,
        List.map_cons, ih]
    · rw [traceIdxs_cons_neg proj useWl ppl zgap points_ idx rest wl wc c hc,
        List.map_cons, ih]

lemma traceLayers_map_fst :
    ∀ (layers : List (List ℕ)) (wl wc : ℝ) (c : ℕ),
      (traceLayers proj useWl ppl zgap points_ layers wl wc c).map Prod.fst
        = layers.flatten := by
  intro layers
  induction layers with
  | nil => intro wl wc c; rfl
  | cons layer rest ih =>
    intro wl wc c
    simp only [traceLayers, List.map_append, traceIdxs_map_fst, ih, List.flatten_cons]

lemma traceIdxs_uv :
    ∀ (layer : List ℕ) (wl wc : ℝ) (c : ℕ) (e : ℕ × ℝ × ℝ × ℝ),
      e ∈ traceIdxs proj useWl ppl zgap points_ layer wl wc c →
        e.2.1 = (proj (points_.getD e.1 [])).1 ∧
          e.2.2.1 = (proj (points_.getD e.1 [])).2 := by
  intro layer
  induction layer with
  | nil => intro wl wc c e he; simp [traceIdxs] at he
  | cons idx rest ih =>
    intro wl wc c e he
    by_cases hc : pplGE ppl (c + 1)
    · rw [traceIdxs_cons_pos proj useWl ppl zgap points_ idx rest wl wc c hc] at he
      rcases List.mem_cons.mp he with he | he
      · rw [he]; exact ⟨rfl, rfl⟩
      · exact ih wl (wc - zgap) 0 e he
    · rw [traceIdxs_cons_neg proj useWl ppl zgap points_ idx rest wl wc c hc] at he
      rcases List.mem_cons.mp he with he | he
      · rw [he]; exact ⟨rfl, rfl⟩
      · exact ih wl wc (c + 1) e he

lemma traceLayers_uv :
    ∀ (layers : List (List ℕ)) (wl wc : ℝ) (c : ℕ) (e : ℕ × ℝ × ℝ × ℝ),
      e ∈ traceLayers proj useWl ppl zgap points_ layers wl wc c →
        e.2.1 = (proj (points_.getD e.1 [])).1 ∧
          e.2.2.1 = (proj (points_.getD e.1 [])).2 := by
  intro layers
  induction layers with
  | nil => intro wl wc c e he; simp [traceLayers] at he
  | cons layer rest ih =>
    intro wl wc c e he
    simp only [traceLayers] at he
    rcases List.mem_append.mp he with he | he
    · exact traceIdxs_uv proj useWl ppl zgap points_ layer wl wc c e he
    · exact ih _ _ _ e he

lemma traceIdxs_mem_wl :
    ∀ (layer : List ℕ) (wl wc : ℝ) (c : ℕ) (idx : ℕ), idx ∈ layer →
      (idx, (proj (points_.getD idx [])).1, (proj (points_.getD idx [])).2, wl)
        ∈ traceIdxs proj true ppl zgap points_ layer wl wc c := by
  intro layer
  induction layer with
  | nil => intro wl wc c idx h; simp at h
  | cons a rest ih =>
    intro wl wc c idx h
    by_cases hc : pplGE ppl (c + 1)
    · rw [traceIdxs_cons_pos proj true ppl zgap points_ a rest wl wc c hc]
      rcases List.mem_cons.mp h with h | h
      · rw [h]; exact List.mem_cons_self _ _
      · exact List.mem_cons_of_mem _ (ih wl (wc - zgap) 0 idx h)
    · rw [traceIdxs_cons_neg proj true ppl zgap points_ a rest wl wc c hc]
      rcases List.mem_cons.mp h with h | h
      · rw [h]; exact List.mem_cons_self _ _
      · exact List.mem_cons_of_mem _ (ih wl wc (c + 1) idx h)

lemma traceLayers_mem_wl :
    ∀ (layers : List (List ℕ)) (wl wc : ℝ) (c : ℕ) (j : ℕ) (hj : j < layers.length)
      (idx : ℕ), idx ∈ layers.get ⟨j, hj⟩ →
      (idx, (proj (points_.getD idx [])).1, (proj (points_.getD idx [])).2,
        wl - (j : ℝ) * zgap)
        ∈ traceLayers proj true ppl zgap points_ layers wl wc c := by
  intro layers
  induction layers with
  | nil => intro wl wc c j hj; simp at hj
  | cons layer rest ih =>
    intro wl wc c j hj idx hmem
    cases j with
    | zero =>
      have h0 : wl - ((0 : ℕ) : ℝ) * zgap = wl := by push_cast; ring
      rw [h0]
      simp only [traceLayers]
      exact List.mem_append_left _
        (traceIdxs_mem_wl proj ppl zgap points_ layer wl wc c idx hmem)
    | succ j =>
      have heq : wl - ((j + 1 : ℕ) : ℝ) * zgap = (wl - zgap) - (j : ℝ) * zgap := by
        push_cast; ring
      rw [heq]
      simp only [traceLayers]
      refine List.mem_append_right _ ?_
      exact ih (wl - zgap) (stepIdxs ppl zgap layer wc c).1 (stepIdxs ppl zgap layer wc c).2
        j (by simpa using hj) idx hmem

lemma traceIdxs_false_wl :
    ∀ (layer : List ℕ) (wl wl' wc : ℝ) (c : ℕ),
      traceIdxs proj false ppl zgap points_ layer wl wc c =
        traceIdxs proj false ppl zgap points_ layer wl' wc c := by
  intro layer
  induction layer with
  | nil => intro wl wl' wc c; rfl
  | cons idx rest ih =>
    intro wl wl' wc c
    by_cases hc : pplGE ppl (c + 1)
    · rw [traceIdxs_cons_pos proj false ppl zgap points_ idx rest wl wc c hc,
        traceIdxs_cons_pos proj false ppl zgap points_ idx rest wl' wc c hc,
        ih wl wl' (wc - zgap) 0]
      simp
    · rw [traceIdxs_cons_neg proj false ppl zgap points_ idx rest wl wc c hc,
        traceIdxs_cons_neg proj false ppl zgap points_ idx rest wl' wc c hc,
        ih wl wl' wc (c + 1)]
      simp

lemma traceIdxs_append :
    ∀ (l1 l2 : List ℕ) (wl wc : ℝ) (c : ℕ),
      traceIdxs proj useWl ppl zgap points_ (l1 ++ l2) wl wc c =
        traceIdxs proj useWl ppl zgap points_ l1 wl wc c ++
          traceIdxs proj useWl ppl zgap points_ l2 wl
            (stepIdxs ppl zgap l1 wc c).1 (stepIdxs ppl zgap l1 wc c).2 := by
  intro l1
  induction l1 with
  | nil => intro l2 wl wc c; rfl
  | cons idx rest ih =>
    intro l2 wl wc c
    rw [List.cons_append]
    by_cases hc : pplGE ppl (c + 1)
    · rw [traceIdxs_cons_pos proj useWl ppl zgap points_ idx (rest ++ l2) wl wc c hc,
        traceIdxs_cons_pos proj useWl ppl zgap points_ idx rest wl wc c hc,
        stepIdxs_cons_pos ppl zgap idx rest wc c hc, ih, List.cons_append]
    · rw [traceIdxs_cons_neg proj useWl ppl zgap points_ idx (rest ++ l2) wl wc c hc,
        traceIdxs_cons_neg proj useWl ppl zgap points_ idx rest wl wc c hc,
        stepIdxs_cons_neg ppl zgap idx rest wc c hc, ih, List.cons_append]

lemma traceLayers_false_flat :
    ∀ (layers : List (List ℕ)) (wl wc : ℝ) (c : ℕ),
      traceLayers proj false ppl zgap points_ layers wl wc c =
        traceIdxs proj false ppl zgap points_ layers.flatten wl wc c := by
  intro layers
  induction layers with
  | nil => intro wl wc c; rfl
  | cons layer rest ih =>
    intro wl wc c
    simp only [traceLayers, List.flatten_cons]
    rw [ih, traceIdxs_append proj false ppl zgap points_,
      traceIdxs_false_wl proj ppl zgap points_ rest.flatten (wl - zgap) wl]

lemma traceIdxs_length :
    ∀ (layer : List ℕ) (wl wc : ℝ) (c : ℕ),
      (traceIdxs proj useWl ppl zgap points_ layer wl wc c).length = layer.length := by
  intro layer
  induction layer with
  | nil => intro wl wc c; rfl
  | cons idx rest ih =>
    intro wl wc c
    by_cases hc : pplGE ppl (c + 1)
    · rw [traceIdxs_cons_pos proj useWl ppl zgap points_ idx rest wl wc c hc]
      simp [ih]
    · rw [traceIdxs_cons_neg proj useWl ppl zgap points_ idx rest wl wc c hc]
      simp [ih]

lemma traceIdxs_false_getD (t : ℝ) :
    ∀ (ids : List ℕ) (wl wc : ℝ) (c k : ℕ), k < ids.length →
      ∃ u v, (traceIdxs proj false (some t) zgap points_ ids wl wc c).getD k (0, 0, 0, 0) =
        (ids.getD k 0, u, v, wc - zgap * ((decsFrom t c k : ℕ) : ℝ)) := by
  intro ids
  induction ids with
  | nil => intro wl wc c k hk; simp at hk
  | cons a rest ih =>
    intro wl wc c k hk
    by_cases hc : pplGE (some t) (c + 1)
    · rw [traceIdxs_cons_pos proj false (some t) zgap points_ a rest wl wc c hc]
      cases k with
      | zero =>
        refine ⟨(proj (points_.getD a [])).1, (proj (points_.getD a [])).2, ?_⟩
        simp [decsFrom]
      | succ k =>
        rw [List.getD_cons_succ]
        obtain ⟨u, v, hres⟩ := ih wl (wc - zgap) 0 k (by simpa using hk)
        refine ⟨u, v, ?_⟩
        rw [hres, List.getD_cons_succ]
        have hw : wc - zgap * ((decsFrom t c (k + 1) : ℕ) : ℝ)
            = (wc - zgap) - zgap * ((decsFrom t 0 k : ℕ) : ℝ) := by
          have hd : decsFrom t c (k + 1) = 1 + decsFrom t 0 k := by
            have hc' : t ≤ ((c + 1 : ℕ) : ℝ) := hc
            simp only [decsFrom]
            rw [if_pos hc']
          rw [hd]; push_cast; ring
        rw [hw]
    · rw [traceIdxs_cons_neg proj false (some t) zgap points_ a rest wl wc c hc]
      cases k with
      | zero =>
        refine ⟨(proj (points_.getD a [])).1, (proj (points_.getD a [])).2, ?_⟩
        simp [decsFrom]
      | succ k =>
        rw [List.getD_cons_succ]
        obtain ⟨u, v, hres⟩ := ih wl wc (c + 1) k (by simpa using hk)
        refine ⟨u, v, ?_⟩
        rw [hres, List.getD_cons_succ]
        have hw : wc - zgap * ((decsFrom t c (k + 1) : ℕ) : ℝ)
            = wc - zgap * ((decsFrom t (c + 1) k : ℕ) : ℝ) := by
          have hd : decsFrom t c (k + 1) = decsFrom t (c + 1) k := by
            have hc' : ¬t ≤ ((c + 1 : ℕ) : ℝ) := hc
            simp only [decsFrom]
            rw [if_neg hc']
          rw [hd]
        rw [hw]

end Bridge

/-! Helper lemmas: projection formulas and top-level unfoldings. -/

lemma overlay_none {α : Type} (tr : List (ℕ × α)) (idx : ℕ) :
    overlay tr (fun _ => none) idx = lastAssoc tr idx := by
  simp only [overlay]
  cases lastAssoc tr idx <;> rfl

lemma projNorm_nonpos (S : List (ℝ × ℝ)) (g : List ℝ) (h : ¬0 < g.sum) :
    projNorm S g = (0, 0) := by
  simp only [projNorm]
  rw [if_neg h]

lemma axes_eq (m : ℕ) :
    axes m = (List.range m).map
      (fun (i : ℕ) => (Real.cos (2 * Real.pi * ((i : ℝ) / (m : ℝ))),
                       Real.sin (2 * Real.pi * ((i : ℝ) / (m : ℝ))))) := by
  simp only [axes, List.map_map]
  rfl

lemma projNorm_pos (m : ℕ) (g : List ℝ) (hg : g.length = m) (hpos : 0 < g.sum) :
    projNorm (axes m) g =
      (((List.range m).map
          (fun (i : ℕ) => g.getD i 0 * Real.cos (2 * Real.pi * ((i : ℝ) / (m : ℝ))))).sum
            / g.sum,
       ((List.range m).map
          (fun (i : ℕ) => g.getD i 0 * Real.sin (2 * Real.pi * ((i : ℝ) / (m : ℝ))))).sum
            / g.sum) := by
  subst hg
  simp only [projNorm]
  rw [if_pos hpos, axes_eq,
    zipWith_sum_eq_range (fun fi t => fi * t.1) g,
    zipWith_sum_eq_range (fun fi t => fi * t.2) g]

lemma projPolar_formula (m : ℕ) (g : List ℝ) (hg : g.length = m) :
    projPolar (axes m) g =
      (((List.range m).map
          (fun (i : ℕ) => g.getD i 0 * Real.cos (2 * Real.pi * ((i : ℝ) / (m : ℝ))))).sum,
       ((List.range m).map
          (fun (i : ℕ) => g.getD i 0 * Real.sin (2 * Real.pi * ((i : ℝ) / (m : ℝ))))).sum) := by
  subst hg
  simp only [projPolar]
  rw [axes_eq,
    zipWith_sum_eq_range (fun fi t => fi * t.1) g,
    zipWith_sum_eq_range (fun fi t => fi * t.2) g]

lemma logistic_map_eq (points : List Point) (A : ℝ) :
    logistic_map points A = points.map (List.map (logistic_remap A)) := rfl

lemma palettize_eq (points : List Point) (layers : List (List ℕ)) (n_layers : ℕ)
    (zgap : ℝ) (hv : validInput points layers) :
    palettize points layers n_layers zgap =
      some (overlay (normTrace points layers n_layers zgap) (fun _ => none)) := by
  have hfac : (if 3 < points.headI.length then (2 : ℝ) else 1)
      = ((if 3 < points.headI.length then 2 else 1 : ℕ) : ℝ) := by
    split <;> norm_num
  have hsc := scale_of_natCast (if 3 < points.headI.length then (2 : ℝ) else 1)
    (if 3 < points.headI.length then 2 else 1) hfac points
  simp only [palettize]
  rw [if_pos hv, hsc, Option.map_some']
  simp only [List.length_map]
  congr 1
  rw [runLayers_coords]
  rfl

lemma palettize_polar_eq (points : List Point) (layers : List (List ℕ)) (n_layers : ℕ)
    (zgap : ℝ) (hv : validInput points layers) :
    palettize_polar points layers n_layers zgap =
      some (overlay (polarTrace points layers n_layers zgap) (fun _ => none)) := by
  have hfac : (if 3 < points.headI.length then (3 : ℝ) else 2)
      = ((if 3 < points.headI.length then 3 else 2 : ℕ) : ℝ) := by
    split <;> norm_num
  have hsc := scale_of_natCast (if 3 < points.headI.length then (3 : ℝ) else 2)
    (if 3 < points.headI.length then 3 else 2) hfac (reverse_normalize points)
  have hcomp : (reverse_normalize points).map
      (List.map (fun f => f ^ (if 3 < points.headI.length then (3 : ℝ) else 2)))
      = points.map
        (List.map (fun f => (1 - f) ^ (if 3 < points.headI.length then (3 : ℝ) else 2))) := by
    simp only [reverse_normalize, List.map_map, Function.comp_def]
  simp only [palettize_polar]
  rw [if_pos hv, hsc, Option.map_some', hcomp]
  simp only [List.length_map]
  congr 1
  rw [runLayers_coords]
  rfl

lemma palettize_logistic_eq (points : List Point) (layers : List (List ℕ)) (n_layers : ℕ)
    (zgap : ℝ) (hv : validInput points layers) :
    palettize_logistic points layers n_layers zgap =
      some (overlay (logisticTrace points layers n_layers zgap) (fun _ => none)) := by
  have hhead : (points.map (List.map (logistic_remap 15))).headI.length
      = points.headI.length := by
    cases points with
    | nil => exact absurd rfl hv.1
    | cons p ps => simp [List.headI]
  simp only [palettize_logistic]
  rw [if_pos hv, logistic_map_eq, hhead]
  simp only [List.length_map]
  congr 1
  rw [runLayers_coords]
  rfl

/-! Claim theorems. -/

lemma pypow_neg_nonint (f factor : ℝ) (hf : f < 0) (h2 : ¬∃ n : ℤ, factor = (n : ℝ)) :
    pypow f factor = none := by
  simp only [pypow]
  rw [if_pos ⟨hf, h2⟩]

lemma scaleRow_neg (factor : ℝ) (h2 : ¬∃ n : ℤ, factor = (n : ℝ)) :
    ∀ row : List ℝ, (∃ f ∈ row, f < 0) → scaleRow factor row = none := by
  intro row
  induction row with
  | nil => rintro ⟨f, hf, -⟩; simp at hf
  | cons a tl ih =>
    rintro ⟨f, hf, hneg⟩
    rcases List.mem_cons.mp hf with rfl | hf
    · simp only [scaleRow, pypow_neg_nonint f factor hneg h2, Option.none_bind]
    · simp only [scaleRow, ih ⟨f, hf, hneg⟩, Option.map_none']
      cases pypow a factor <;> rfl

lemma scale_none_of_row (factor : ℝ) :
    ∀ points : List Point, (∃ p ∈ points, scaleRow factor p = none) →
      scale points factor = none := by
  intro points
  induction points with
  | nil => rintro ⟨p, hp, -⟩; simp at hp
  | cons q qs ih =>
    rintro ⟨p, hp, hnone⟩
    rcases List.mem_cons.mp hp with rfl | hp
    · simp only [scale, hnone, Option.none_bind]
    · simp only [scale, ih ⟨p, hp, hnone⟩, Option.map_none']
      cases scaleRow factor q <;> rfl

/-- Claim C4: for every point collection containing some coordinate `f < 0`
and every non-integer factor, `scale points factor` fails with a
numeric-domain error (it does not return a real-valued point collection). -/
theorem scale_domain_error (points : List Point) (factor : ℝ)
    (h1 : ∃ p ∈ points, ∃ f ∈ p, f < 0) (h2 : ¬∃ n : ℤ, factor = (n : ℝ)) :
    scale points factor = none := by
  obtain ⟨p, hp, hfex⟩ := h1
  exact scale_none_of_row factor points ⟨p, hp, scaleRow_neg factor h2 p hfex⟩

/-- Witness for C4: `scale [[-1]] (1/2)` fails. -/
theorem scale_domain_error_witness :
    (∃ p ∈ [[(-1 : ℝ)]], ∃ f ∈ p, f < 0) ∧ scale [[(-1 : ℝ)]] (1 / 2) = none := by
  have hmem : ∃ p ∈ [[(-1 : ℝ)]], ∃ f ∈ p, f < 0 :=
    ⟨[(-1 : ℝ)], List.mem_singleton.mpr rfl, -1, List.mem_singleton.mpr rfl, by norm_num⟩
  have hni : ¬∃ n : ℤ, (1 / 2 : ℝ) = (n : ℝ) := by
    rintro ⟨n, hn⟩
    field_simp at hn
    have h4 : (1 : ℤ) = n * 2 := by exact_mod_cast hn
    omega
  exact ⟨hmem, scale_domain_error [[(-1 : ℝ)]] (1 / 2) hmem hni⟩

/-- Claim C6: the logistic remap used by the logistic variant (with
`A = 15.0`, `p = sigma(-A/2)`, `q = sigma(A/2)`) is strictly monotonically
increasing, and maps `0.5` exactly to `(0.5 - p) / (q - p)`; `logistic_map`
applies exactly this remap to every coordinate. -/
theorem logistic_remap_monotone_mid :
    (∀ v w : ℝ, v < w → logistic_remap 15 v < logistic_remap 15 w) ∧
    logistic_remap 15 0.5
      = (0.5 - sigma (-(15 / 2))) / (sigma (15 / 2) - sigma (-(15 / 2))) ∧
    ∀ points : List Point,
      logistic_map points 15 = points.map (List.map (logistic_remap 15)) := by
  have hpq : (1 : ℝ) / (1 + Real.exp (15 / 2)) < 1 / (1 + Real.exp (-15 / 2)) := by
    have he : Real.exp (-15 / 2) < Real.exp (15 / 2) := Real.exp_lt_exp.mpr (by norm_num)
    exact one_div_lt_one_div_of_lt (by positivity) (by linarith)
  refine ⟨?_, ?_, ?_⟩
  · intro v w hvw
    have hexp : Real.exp (-15 * (w - 0.5)) < Real.exp (-15 * (v - 0.5)) :=
      Real.exp_lt_exp.mpr (by nlinarith)
    have hx : (1 : ℝ) / (1 + Real.exp (-15 * (v - 0.5)))
        < 1 / (1 + Real.exp (-15 * (w - 0.5))) :=
      one_div_lt_one_div_of_lt (by positivity) (by linarith)
    simp only [logistic_remap]
    rw [div_lt_div_iff_of_pos_right (by linarith)]
    linarith
  · simp only [logistic_remap, sigma]
    norm_num [Real.exp_zero]
  · intro points
    rfl

/-- Witness for C6: the remap is increasing from `0` to `1`. -/
theorem logistic_remap_monotone_mid_witness :
    logistic_remap 15 0 < logistic_remap 15 1 :=
  logistic_remap_monotone_mid.1 0 1 (by norm_num)

/-- Claim C1: for a point collection of uniform dimension `m ≥ 2`, the
normalized (default) variant first replaces each coordinate `f` by
`f ^ p` with `p = 2.0 if m > 3 else 1.0`, and then maps each projected point
with preprocessed coordinates `g` to `u = (Σ g i · cos(2πi/m)) / Σ g` and
`v = (Σ g i · sin(2πi/m)) / Σ g` when `Σ g > 0`, and to `(0, 0)` when
`Σ g = 0`. -/
theorem palettize_normalized_projection (points : List Point) (layers : List (List ℕ))
    (n_layers : ℕ) (zgap : ℝ) (m : ℕ) (_hm : 2 ≤ m)
    (hlen : ∀ p ∈ points, p.length = m) (hne : points ≠ [])
    (hidx : ∀ layer ∈ layers, ∀ idx ∈ layer, idx < points.length) :
    ∃ d, palettize points layers n_layers zgap = some d ∧
      ∀ idx u v w, d idx = some (u, v, w) →
        ∀ g, g = (points.getD idx []).map (fun f => f ^ (if 3 < m then (2 : ℝ) else 1)) →
          (0 < g.sum →
            u = ((List.range m).map (fun (i : ℕ) =>
                  g.getD i 0 * Real.cos (2 * Real.pi * ((i : ℝ) / (m : ℝ))))).sum / g.sum ∧
            v = ((List.range m).map (fun (i : ℕ) =>
                  g.getD i 0 * Real.sin (2 * Real.pi * ((i : ℝ) / (m : ℝ))))).sum / g.sum) ∧
          (g.sum = 0 → u = 0 ∧ v = 0) := by
  have hhead : points.headI ∈ points := by
    cases points with
    | nil => exact absurd rfl hne
    | cons p ps => exact List.mem_cons_self _ _
  have hm0 : points.headI.length = m := hlen _ hhead
  have hv : validInput points layers := ⟨hne, fun p hp => (hlen p hp).trans hm0.symm, hidx⟩
  refine ⟨overlay (normTrace points layers n_layers zgap) (fun _ => none),
    palettize_eq points layers n_layers zgap hv, ?_⟩
  intro idx u v w hd g hg
  rw [overlay_none] at hd
  have hmem2 := lastAssoc_mem _ idx (u, v, w) hd
  simp only [normTrace] at hmem2
  have huv := traceLayers_uv (projNorm (axes points.headI.length))
    (decide (n_layers = 0 ∨ layers.length ≤ n_layers))
    (if 0 < n_layers then some ((points.length : ℝ) / (n_layers : ℝ)) else none) zgap
    (points.map (List.map (fun f => f ^ (if 3 < points.headI.length then (2 : ℝ) else 1))))
    layers 0 0 0 (idx, u, v, w) hmem2
  have hflat : idx ∈ layers.flatten := by
    have hmf : idx ∈ (traceLayers (projNorm (axes points.headI.length))
        (decide (n_layers = 0 ∨ layers.length ≤ n_layers))
        (if 0 < n_layers then some ((points.length : ℝ) / (n_layers : ℝ)) else none) zgap
        (points.map (List.map (fun f => f ^ (if 3 < points.headI.length then (2 : ℝ) else 1))))
        layers 0 0 0).map Prod.fst :=
      List.mem_map.mpr ⟨(idx, u, v, w), hmem2, rfl⟩
    rwa [traceLayers_map_fst] at hmf
  have hlt : idx < points.length := by
    obtain ⟨layer, hl, hi⟩ := List.mem_flatten.mp hflat
    exact hidx layer hl idx hi
  rw [hm0] at huv
  have hgd : (points.map (List.map (fun f => f ^ (if 3 < m then (2 : ℝ) else 1)))).getD idx []
      = g := by
    rw [getD_map_of_lt (List.map (fun f => f ^ (if 3 < m then (2 : ℝ) else 1))) [] []
      points idx hlt, hg]
  rw [hgd] at huv
  have hglen : g.length = m := by
    rw [hg, List.length_map]
    exact hlen _ (getD_mem [] points idx hlt)
  by_cases hpos : 0 < g.sum
  · have hproj := projNorm_pos m g hglen hpos
    refine ⟨fun _ => ?_, fun hzero => absurd (hzero ▸ hpos) (lt_irrefl (0 : ℝ))⟩
    constructor
    · have h1 := huv.1
      rw [hproj] at h1
      exact h1
    · have h2 := huv.2
      rw [hproj] at h2
      exact h2
  · have hproj := projNorm_nonpos (axes m) g hpos
    refine ⟨fun hpos' => absurd hpos' hpos, fun _ => ?_⟩
    constructor
    · have h1 := huv.1
      rw [hproj] at h1
      exact h1
    · have h2 := huv.2
      rw [hproj] at h2
      exact h2

/-- Witness for C1 at `points = [[1,0],[0,1]]`, `layers = [[0,1]]`. -/
theorem palettize_normalized_projection_witness :
    ∃ d, palettize [[(1 : ℝ), 0], [0, 1]] [[0, 1]] 0 1 = some d ∧
      ∀ idx u v w, d idx = some (u, v, w) →
        ∀ g, g = (([[(1 : ℝ), 0], [0, 1]].getD idx []).map
            (fun f => f ^ (if 3 < 2 then (2 : ℝ) else 1))) →
          (0 < g.sum →
            u = ((List.range 2).map (fun (i : ℕ) =>
                  g.getD i 0 * Real.cos (2 * Real.pi * ((i : ℝ) / (2 : ℝ))))).sum / g.sum ∧
            v = ((List.range 2).map (fun (i : ℕ) =>
                  g.getD i 0 * Real.sin (2 * Real.pi * ((i : ℝ) / (2 : ℝ))))).sum / g.sum) ∧
          (g.sum = 0 → u = 0 ∧ v = 0) := by
  refine palettize_normalized_projection [[(1 : ℝ), 0], [0, 1]] [[0, 1]] 0 1 2 (by norm_num)
    ?_ ?_ ?_
  · intro p hp
    rcases List.mem_cons.mp hp with rfl | hp
    · rfl
    · rcases List.mem_cons.mp hp with rfl | hp
      · rfl
      · simp at hp
  · simp
  · intro layer hl idx hi
    rcases List.mem_cons.mp hl with rfl | hl
    · rcases List.mem_cons.mp hi with rfl | hi
      · norm_num
      · rcases List.mem_cons.mp hi with rfl | hi
        · norm_num
        · simp at hi
    · simp at hl

/-- Claim C8: for a point collection of uniform dimension `m ≥ 2`, the
reverse-polar variant first replaces each coordinate `f` by `(1 - f) ^ p`
with `p = 3.0 if m > 3 else 2.0`, and maps each projected point with
preprocessed coordinates `g` to `u = Σ g i · cos(2πi/m)` and
`v = Σ g i · sin(2πi/m)`, with no division by the coordinate sum. -/
theorem palettize_polar_projection (points : List Point) (layers : List (List ℕ))
    (n_layers : ℕ) (zgap : ℝ) (m : ℕ) (_hm : 2 ≤ m)
    (hlen : ∀ p ∈ points, p.length = m) (hne : points ≠ [])
    (hidx : ∀ layer ∈ layers, ∀ idx ∈ layer, idx < points.length) :
    ∃ d, palettize_polar points layers n_layers zgap = some d ∧
      ∀ idx u v w, d idx = some (u, v, w) →
        ∀ g, g = (points.getD idx []).map
            (fun f => (1 - f) ^ (if 3 < m then (3 : ℝ) else 2)) →
          u = ((List.range m).map (fun (i : ℕ) =>
                g.getD i 0 * Real.cos (2 * Real.pi * ((i : ℝ) / (m : ℝ))))).sum ∧
          v = ((List.range m).map (fun (i : ℕ) =>
                g.getD i 0 * Real.sin (2 * Real.pi * ((i : ℝ) / (m : ℝ))))).sum := by
  have hhead : points.headI ∈ points := by
    cases points with
    | nil => exact absurd rfl hne
    | cons p ps => exact List.mem_cons_self _ _
  have hm0 : points.headI.length = m := hlen _ hhead
  have hv : validInput points layers := ⟨hne, fun p hp => (hlen p hp).trans hm0.symm, hidx⟩
  refine ⟨overlay (polarTrace points layers n_layers zgap) (fun _ => none),
    palettize_polar_eq points layers n_layers zgap hv, ?_⟩
  intro idx u v w hd g hg
  rw [overlay_none] at hd
  have hmem2 := lastAssoc_mem _ idx (u, v, w) hd
  simp only [polarTrace] at hmem2
  have huv := traceLayers_uv (projPolar (axes points.headI.length))
    (decide (n_layers = 0 ∨ layers.length ≤ n_layers))
    (if 0 < n_layers then some ((points.length : ℝ) / (n_layers : ℝ)) else none) zgap
    (points.map (List.map (fun f => (1 - f) ^ (if 3 < points.headI.length then (3 : ℝ) else 2))))
    layers 0 0 0 (idx, u, v, w) hmem2
  have hflat : idx ∈ layers.flatten := by
    have hmf : idx ∈ (traceLayers (projPolar (axes points.headI.length))
        (decide (n_layers = 0 ∨ layers.length ≤ n_layers))
        (if 0 < n_layers then some ((points.length : ℝ) / (n_layers : ℝ)) else none) zgap
        (points.map
          (List.map (fun f => (1 - f) ^ (if 3 < points.headI.length then (3 : ℝ) else 2))))
        layers 0 0 0).map Prod.fst :=
      List.mem_map.mpr ⟨(idx, u, v, w), hmem2, rfl⟩
    rwa [traceLayers_map_fst] at hmf
  have hlt : idx < points.length := by
    obtain ⟨layer, hl, hi⟩ := List.mem_flatten.mp hflat
    exact hidx layer hl idx hi
  rw [hm0] at huv
  have hgd : (points.map
      (List.map (fun f => (1 - f) ^ (if 3 < m then (3 : ℝ) else 2)))).getD idx [] = g := by
    rw [getD_map_of_lt (List.map (fun f => (1 - f) ^ (if 3 < m then (3 : ℝ) else 2))) [] []
      points idx hlt, hg]
  rw [hgd] at huv
  have hglen : g.length = m := by
    rw [hg, List.length_map]
    exact hlen _ (getD_mem [] points idx hlt)
  have hproj := projPolar_formula m g hglen
  constructor
  · have h1 := huv.1
    rw [hproj] at h1
    exact h1
  · have h2 := huv.2
    rw [hproj] at h2
    exact h2

/-- Witness for C8 at `points = [[0,1],[1,0]]`, `layers = [[0,1]]`. -/
theorem palettize_polar_projection_witness :
    ∃ d, palettize_polar [[(0 : ℝ), 1], [1, 0]] [[0, 1]] 0 1 = some d ∧
      ∀ idx u v w, d idx = some (u, v, w) →
        ∀ g, g = (([[(0 : ℝ), 1], [1, 0]].getD idx []).map
            (fun f => (1 - f) ^ (if 3 < 2 then (3 : ℝ) else 2))) →
          u = ((List.range 2).map (fun (i : ℕ) =>
                g.getD i 0 * Real.cos (2 * Real.pi * ((i : ℝ) / (2 : ℝ))))).sum ∧
          v = ((List.range 2).map (fun (i : ℕ) =>
                g.getD i 0 * Real.sin (2 * Real.pi * ((i : ℝ) / (2 : ℝ))))).sum := by
  refine palettize_polar_projection [[(0 : ℝ), 1], [1, 0]] [[0, 1]] 0 1 2 (by norm_num)
    ?_ ?_ ?_
  · intro p hp
    rcases List.mem_cons.mp hp with rfl | hp
    · rfl
    · rcases List.mem_cons.mp hp with rfl | hp
      · rfl
      · simp at hp
  · simp
  · intro layer hl idx hi
    rcases List.mem_cons.mp hl with rfl | hl
    · rcases List.mem_cons.mp hi with rfl | hi
      · norm_num
      · rcases List.mem_cons.mp hi with rfl | hi
        · norm_num
        · simp at hi
    · simp at hl

/-- Claim C10: in the normalized and logistic variants the division by the
coordinate sum is guarded by `sum > 0.0`, so whenever the preprocessed
coordinate sum is not positive — negative as well as exactly zero — the
entry gets `(u, v) = (0, 0)` and the division branch is not taken. -/
theorem palettize_nonpos_sum_zero (points : List Point) (layers : List (List ℕ))
    (n_layers : ℕ) (zgap : ℝ) (hne : points ≠ [])
    (hlen : ∀ p ∈ points, p.length = points.headI.length)
    (hidx : ∀ layer ∈ layers, ∀ idx ∈ layer, idx < points.length) :
    (∃ d, palettize points layers n_layers zgap = some d ∧
      ∀ idx u v w, d idx = some (u, v, w) →
        ((points.getD idx []).map
          (fun f => f ^ (if 3 < points.headI.length then (2 : ℝ) else 1))).sum ≤ 0 →
        u = 0 ∧ v = 0) ∧
    (∃ d, palettize_logistic points layers n_layers zgap = some d ∧
      ∀ idx u v w, d idx = some (u, v, w) →
        ((points.getD idx []).map (logistic_remap 15)).sum ≤ 0 →
        u = 0 ∧ v = 0) := by
  have hv : validInput points layers := ⟨hne, hlen, hidx⟩
  constructor
  · refine ⟨overlay (normTrace points layers n_layers zgap) (fun _ => none),
      palettize_eq points layers n_layers zgap hv, ?_⟩
    intro idx u v w hd hsum
    rw [overlay_none] at hd
    have hmem2 := lastAssoc_mem _ idx (u, v, w) hd
    simp only [normTrace] at hmem2
    have huv := traceLayers_uv (projNorm (axes points.headI.length))
      (decide (n_layers = 0 ∨ layers.length ≤ n_layers))
      (if 0 < n_layers then some ((points.length : ℝ) / (n_layers : ℝ)) else none) zgap
      (points.map (List.map (fun f => f ^ (if 3 < points.headI.length then (2 : ℝ) else 1))))
      layers 0 0 0 (idx, u, v, w) hmem2
    have hflat : idx ∈ layers.flatten := by
      have hmf : idx ∈ (traceLayers (projNorm (axes points.headI.length))
          (decide (n_layers = 0 ∨ layers.length ≤ n_layers))
          (if 0 < n_layers then some ((points.length : ℝ) / (n_layers : ℝ)) else none) zgap
          (points.map
            (List.map (fun f => f ^ (if 3 < points.headI.length then (2 : ℝ) else 1))))
          layers 0 0 0).map Prod.fst :=
        List.mem_map.mpr ⟨(idx, u, v, w), hmem2, rfl⟩
      rwa [traceLayers_map_fst] at hmf
    have hlt : idx < points.length := by
      obtain ⟨layer, hl, hi⟩ := List.mem_flatten.mp hflat
      exact hidx layer hl idx hi
    have hgd : (points.map (List.map
        (fun f => f ^ (if 3 < points.headI.length then (2 : ℝ) else 1)))).getD idx []
        = (points.getD idx []).map
          (fun f => f ^ (if 3 < points.headI.length then (2 : ℝ) else 1)) :=
      getD_map_of_lt _ [] [] points idx hlt
    rw [hgd] at huv
    have hproj := projNorm_nonpos (axes points.headI.length)
      ((points.getD idx []).map
        (fun f => f ^ (if 3 < points.headI.length then (2 : ℝ) else 1)))
      (not_lt.mpr hsum)
    constructor
    · have h1 := huv.1
      rw [hproj] at h1
      exact h1
    · have h2 := huv.2
      rw [hproj] at h2
      exact h2
  · refine ⟨overlay (logisticTrace points layers n_layers zgap) (fun _ => none),
      palettize_logistic_eq points layers n_layers zgap hv, ?_⟩
    intro idx u v w hd hsum
    rw [overlay_none] at hd
    have hmem2 := lastAssoc_mem _ idx (u, v, w) hd
    simp only [logisticTrace] at hmem2
    have huv := traceLayers_uv (projNorm (axes points.headI.length))
      (decide (n_layers = 0 ∨ layers.length ≤ n_layers))
      (if 0 < n_layers then some ((points.length : ℝ) / (n_layers : ℝ)) else none) zgap
      (points.map (List.map (logistic_remap 15)))
      layers 0 0 0 (idx, u, v, w) hmem2
    have hflat : idx ∈ layers.flatten := by
      have hmf : idx ∈ (traceLayers (projNorm (axes points.headI.length))
          (decide (n_layers = 0 ∨ layers.length ≤ n_layers))
          (if 0 < n_layers then some ((points.length : ℝ) / (n_layers : ℝ)) else none) zgap
          (points.map (List.map (logistic_remap 15)))
          layers 0 0 0).map Prod.fst :=
        List.mem_map.mpr ⟨(idx, u, v, w), hmem2, rfl⟩
      rwa [traceLayers_map_fst] at hmf
    have hlt : idx < points.length := by
      obtain ⟨layer, hl, hi⟩ := List.mem_flatten.mp hflat
      exact hidx layer hl idx hi
    have hgd : (points.map (List.map (logistic_remap 15))).getD idx []
        = (points.getD idx []).map (logistic_remap 15) :=
      getD_map_of_lt _ [] [] points idx hlt
    rw [hgd] at huv
    have hproj := projNorm_nonpos (axes points.headI.length)
      ((points.getD idx []).map (logistic_remap 15)) (not_lt.mpr hsum)
    constructor
    · have h1 := huv.1
      rw [hproj] at h1
      exact h1
    · have h2 := huv.2
      rw [hproj] at h2
      exact h2

/-- Witness for C10 at `points = [[-1,-1]]`, `layers = [[0]]` (preprocessed
sum is negative for the normalized variant with `m = 2`, factor `1.0`). -/
theorem palettize_nonpos_sum_zero_witness :
    (∃ d, palettize [[(-1 : ℝ), -1]] [[0]] 0 1 = some d ∧
      ∀ idx u v w, d idx = some (u, v, w) →
        (([[(-1 : ℝ), -1]].getD idx []).map
          (fun f => f ^ (if 3 < ([[(-1 : ℝ), -1]] : List Point).headI.length
            then (2 : ℝ) else 1))).sum ≤ 0 →
        u = 0 ∧ v = 0) ∧
    (∃ d, palettize_logistic [[(-1 : ℝ), -1]] [[0]] 0 1 = some d ∧
      ∀ idx u v w, d idx = some (u, v, w) →
        (([[(-1 : ℝ), -1]].getD idx []).map (logistic_remap 15)).sum ≤ 0 →
        u = 0 ∧ v = 0) := by
  refine palettize_nonpos_sum_zero [[(-1 : ℝ), -1]] [[0]] 0 1 ?_ ?_ ?_
  · simp
  · intro p hp
    rcases List.mem_cons.mp hp with rfl | hp
    · rfl
    · simp at hp
  · intro layer hl idx hi
    rcases List.mem_cons.mp hl with rfl | hl
    · rcases List.mem_cons.mp hi with rfl | hi
      · norm_num
      · simp at hi
    · simp at hl

lemma normTrace_map_fst (points : List Point) (layers : List (List ℕ)) (n_layers : ℕ)
    (zgap : ℝ) :
    (normTrace points layers n_layers zgap).map Prod.fst = layers.flatten := by
  simp only [normTrace]
  rw [traceLayers_map_fst]

lemma polarTrace_map_fst (points : List Point) (layers : List (List ℕ)) (n_layers : ℕ)
    (zgap : ℝ) :
    (polarTrace points layers n_layers zgap).map Prod.fst = layers.flatten := by
  simp only [polarTrace]
  rw [traceLayers_map_fst]

lemma logisticTrace_map_fst (points : List Point) (layers : List (List ℕ)) (n_layers : ℕ)
    (zgap : ℝ) :
    (logisticTrace points layers n_layers zgap).map Prod.fst = layers.flatten := by
  simp only [logisticTrace]
  rw [traceLayers_map_fst]

lemma overlay_none_keyset {α : Type} (tr : List (ℕ × α)) (flat : List ℕ)
    (hfst : tr.map Prod.fst = flat) (idx : ℕ) :
    (overlay tr (fun _ => none) idx).isSome ↔ idx ∈ flat := by
  rw [overlay_none]
  constructor
  · intro hs
    obtain ⟨c, hc⟩ := Option.isSome_iff_exists.mp hs
    rw [← hfst]
    exact List.mem_map.mpr ⟨(idx, c), lastAssoc_mem tr idx c hc, rfl⟩
  · intro hf
    rw [← hfst] at hf
    obtain ⟨c, hc⟩ := lastAssoc_isSome tr idx hf
    rw [hc]
    rfl

/-- Claim C7: for each of the three variants, the key set of the returned
mapping is exactly the set of point indices appearing across all layers
(`layers.flatten`), and the entry of each key equals the value of the last
write for that key in walk order (`lastAssoc` of the walk's write trace):
an index written by several layers keeps only the last write. -/
theorem palette_keyset_last_write (points : List Point) (layers : List (List ℕ))
    (n_layers : ℕ) (zgap : ℝ) (hne : points ≠ [])
    (hlen : ∀ p ∈ points, p.length = points.headI.length)
    (hidx : ∀ layer ∈ layers, ∀ idx ∈ layer, idx < points.length) :
    (∃ d, palettize points layers n_layers zgap = some d ∧
      (∀ idx, (d idx).isSome ↔ idx ∈ layers.flatten) ∧
      ∀ idx, d idx = lastAssoc (normTrace points layers n_layers zgap) idx) ∧
    (∃ d, palettize_polar points layers n_layers zgap = some d ∧
      (∀ idx, (d idx).isSome ↔ idx ∈ layers.flatten) ∧
      ∀ idx, d idx = lastAssoc (polarTrace points layers n_layers zgap) idx) ∧
    (∃ d, palettize_logistic points layers n_layers zgap = some d ∧
      (∀ idx, (d idx).isSome ↔ idx ∈ layers.flatten) ∧
      ∀ idx, d idx = lastAssoc (logisticTrace points layers n_layers zgap) idx) := by
  have hv : validInput points layers := ⟨hne, hlen, hidx⟩
  refine ⟨⟨overlay (normTrace points layers n_layers zgap) (fun _ => none),
      palettize_eq points layers n_layers zgap hv, ?_, ?_⟩,
    ⟨overlay (polarTrace points layers n_layers zgap) (fun _ => none),
      palettize_polar_eq points layers n_layers zgap hv, ?_, ?_⟩,
    ⟨overlay (logisticTrace points layers n_layers zgap) (fun _ => none),
      palettize_logistic_eq points layers n_layers zgap hv, ?_, ?_⟩⟩
  · exact overlay_none_keyset _ _ (normTrace_map_fst points layers n_layers zgap)
  · intro idx
    exact overlay_none _ idx
  · exact overlay_none_keyset _ _ (polarTrace_map_fst points layers n_layers zgap)
  · intro idx
    exact overlay_none _ idx
  · exact overlay_none_keyset _ _ (logisticTrace_map_fst points layers n_layers zgap)
  · intro idx
    exact overlay_none _ idx

/-- Witness for C7 at `points = [[1,0],[0,1]]`, `layers = [[0],[1]]`. -/
theorem palette_keyset_last_write_witness :
    (∃ d, palettize [[(1 : ℝ), 0], [0, 1]] [[0], [1]] 0 1 = some d ∧
      (∀ idx, (d idx).isSome ↔ idx ∈ ([[0], [1]] : List (List ℕ)).flatten) ∧
      ∀ idx, d idx = lastAssoc (normTrace [[(1 : ℝ), 0], [0, 1]] [[0], [1]] 0 1) idx) ∧
    (∃ d, palettize_polar [[(1 : ℝ), 0], [0, 1]] [[0], [1]] 0 1 = some d ∧
      (∀ idx, (d idx).isSome ↔ idx ∈ ([[0], [1]] : List (List ℕ)).flatten) ∧
      ∀ idx, d idx = lastAssoc (polarTrace [[(1 : ℝ), 0], [0, 1]] [[0], [1]] 0 1) idx) ∧
    (∃ d, palettize_logistic [[(1 : ℝ), 0], [0, 1]] [[0], [1]] 0 1 = some d ∧
      (∀ idx, (d idx).isSome ↔ idx ∈ ([[0], [1]] : List (List ℕ)).flatten) ∧
      ∀ idx, d idx = lastAssoc (logisticTrace [[(1 : ℝ), 0], [0, 1]] [[0], [1]] 0 1) idx) := by
  refine palette_keyset_last_write [[(1 : ℝ), 0], [0, 1]] [[0], [1]] 0 1 ?_ ?_ ?_
  · simp
  · intro p hp
    rcases List.mem_cons.mp hp with rfl | hp
    · rfl
    · rcases List.mem_cons.mp hp with rfl | hp
      · rfl
      · simp at hp
  · intro layer hl idx hi
    rcases List.mem_cons.mp hl with rfl | hl
    · rcases List.mem_cons.mp hi with rfl | hi
      · norm_num
      · simp at hi
    · rcases List.mem_cons.mp hl with rfl | hl
      · rcases List.mem_cons.mp hi with rfl | hi
        · norm_num
        · simp at hi
      · simp at hl

/-- Claim C2: when `nLayers = 0` or the natural layer count is at most
`nLayers`, every point listed in the 0-based `j`-th layer gets depth
`w = -j * zGap` (the layer-indexed `wl` track, starting at `0.0` and
decremented by `zGap` after each completed layer); layers are assumed
disjoint, as the specification requires of callers. -/
theorem palettize_wl_depth (points : List Point) (layers : List (List ℕ))
    (n_layers : ℕ) (zgap : ℝ) (hne : points ≠ [])
    (hlen : ∀ p ∈ points, p.length = points.headI.length)
    (hidx : ∀ layer ∈ layers, ∀ idx ∈ layer, idx < points.length)
    (hnd : layers.flatten.Nodup)
    (htrack : n_layers = 0 ∨ layers.length ≤ n_layers) :
    ∃ d, palettize points layers n_layers zgap = some d ∧
      ∀ (j : ℕ) (hj : j < layers.length), ∀ idx ∈ layers.get ⟨j, hj⟩,
        ∀ u v w, d idx = some (u, v, w) → w = -((j : ℝ) * zgap) := by
  have hv : validInput points layers := ⟨hne, hlen, hidx⟩
  refine ⟨overlay (normTrace points layers n_layers zgap) (fun _ => none),
    palettize_eq points layers n_layers zgap hv, ?_⟩
  intro j hj idx hmem u v w hd
  rw [overlay_none] at hd
  have hdec : decide (n_layers = 0 ∨ layers.length ≤ n_layers) = true :=
    decide_eq_true htrack
  simp only [normTrace] at hd
  rw [hdec] at hd
  have hent := traceLayers_mem_wl (projNorm (axes points.headI.length))
    (if 0 < n_layers then some ((points.length : ℝ) / (n_layers : ℝ)) else none) zgap
    (points.map (List.map (fun f => f ^ (if 3 < points.headI.length then (2 : ℝ) else 1))))
    layers 0 0 0 j hj idx hmem
  have hfst := traceLayers_map_fst (projNorm (axes points.headI.length)) true
    (if 0 < n_layers then some ((points.length : ℝ) / (n_layers : ℝ)) else none) zgap
    (points.map (List.map (fun f => f ^ (if 3 < points.headI.length then (2 : ℝ) else 1))))
    layers 0 0 0
  have hnd2 : ((traceLayers (projNorm (axes points.headI.length)) true
      (if 0 < n_layers then some ((points.length : ℝ) / (n_layers : ℝ)) else none) zgap
      (points.map (List.map (fun f => f ^ (if 3 < points.headI.length then (2 : ℝ) else 1))))
      layers 0 0 0).map Prod.fst).Nodup := by
    rw [hfst]
    exact hnd
  have hlast := lastAssoc_nodup _ hnd2 idx _ hent
  have hinj := Option.some.inj (hd.symm.trans hlast)
  have hw := congrArg (fun t : ℝ × ℝ × ℝ => t.2.2) hinj
  simp only at hw
  rw [hw]
  ring

/-- Witness for C2: `layers = [[0,1],[2,3]]`, `zGap = 1`, `nLayers = 0`
(layer 0 at depth 0, layer 1 at depth -1), and a single layer of 4 points
with `nLayers = 2` (the wl track applies, every point at depth 0). -/
theorem palettize_wl_depth_witness :
    (∃ d, palettize [[(1 : ℝ), 0], [0, 1], [1, 1], [2, 1]] [[0, 1], [2, 3]] 0 1 = some d ∧
      ∀ (j : ℕ) (hj : j < ([[0, 1], [2, 3]] : List (List ℕ)).length),
        ∀ idx ∈ ([[0, 1], [2, 3]] : List (List ℕ)).get ⟨j, hj⟩,
        ∀ u v w, d idx = some (u, v, w) → w = -((j : ℝ) * 1)) ∧
    (∃ d, palettize [[(1 : ℝ), 0], [0, 1], [1, 1], [2, 1]] [[0, 1, 2, 3]] 2 1 = some d ∧
      ∀ (j : ℕ) (hj : j < ([[0, 1, 2, 3]] : List (List ℕ)).length),
        ∀ idx ∈ ([[0, 1, 2, 3]] : List (List ℕ)).get ⟨j, hj⟩,
        ∀ u v w, d idx = some (u, v, w) → w = -((j : ℝ) * 1)) := by
  have hlen4 : ∀ p ∈ [[(1 : ℝ), 0], [0, 1], [1, 1], [2, 1]],
      p.length = ([[(1 : ℝ), 0], [0, 1], [1, 1], [2, 1]] : List Point).headI.length := by
    intro p hp
    rcases List.mem_cons.mp hp with rfl | hp
    · rfl
    · rcases List.mem_cons.mp hp with rfl | hp
      · rfl
      · rcases List.mem_cons.mp hp with rfl | hp
        · rfl
        · rcases List.mem_cons.mp hp with rfl | hp
          · rfl
          · simp at hp
  constructor
  · refine palettize_wl_depth [[(1 : ℝ), 0], [0, 1], [1, 1], [2, 1]] [[0, 1], [2, 3]] 0 1
      (by simp) hlen4 ?_ (by decide) (Or.inl rfl)
    intro layer hl idx hi
    rcases List.mem_cons.mp hl with rfl | hl
    · rcases List.mem_cons.mp hi with rfl | hi
      · norm_num
      · rcases List.mem_cons.mp hi with rfl | hi
        · norm_num
        · simp at hi
    · rcases List.mem_cons.mp hl with rfl | hl
      · rcases List.mem_cons.mp hi with rfl | hi
        · norm_num
        · rcases List.mem_cons.mp hi with rfl | hi
          · norm_num
          · simp at hi
      · simp at hl
  · refine palettize_wl_depth [[(1 : ℝ), 0], [0, 1], [1, 1], [2, 1]] [[0, 1, 2, 3]] 2 1
      (by simp) hlen4 ?_ (by decide) (Or.inr (by norm_num))
    intro layer hl idx hi
    rcases List.mem_cons.mp hl with rfl | hl
    · rcases List.mem_cons.mp hi with rfl | hi
      · norm_num
      · rcases List.mem_cons.mp hi with rfl | hi
        · norm_num
        · rcases List.mem_cons.mp hi with rfl | hi
          · norm_num
          · rcases List.mem_cons.mp hi with rfl | hi
            · norm_num
            · simp at hi
    · simp at hl

/-- Claim C3: when `nLayers > 0` and the natural layer count exceeds
`nLayers`, `pointsPerLayer` is the exact quotient `(point count) / nLayers`
and the depth of the `k`-th processed point in walk order (position `k` of
`layers.flatten`, crossing layer boundaries with no reset of the counter at
layer ends) is `-zGap` times the number of threshold-triggered decrements
among the first `k` points, as computed by the spec-side recurrence
`decsFrom` (counter incremented once per point, reset to `0` exactly when it
reaches or exceeds the threshold); layers are assumed disjoint. -/
theorem palettize_wc_depth (points : List Point) (layers : List (List ℕ))
    (n_layers : ℕ) (zgap : ℝ) (hne : points ≠ [])
    (hlen : ∀ p ∈ points, p.length = points.headI.length)
    (hidx : ∀ layer ∈ layers, ∀ idx ∈ layer, idx < points.length)
    (hnd : layers.flatten.Nodup)
    (hpos : 0 < n_layers) (hgt : n_layers < layers.length) :
    ∃ d, palettize points layers n_layers zgap = some d ∧
      ∀ (k : ℕ), k < layers.flatten.length →
        ∀ u v w, d (layers.flatten.getD k 0) = some (u, v, w) →
          w = -(zgap *
            ((decsFrom ((points.length : ℝ) / (n_layers : ℝ)) 0 k : ℕ) : ℝ)) := by
  have hv : validInput points layers := ⟨hne, hlen, hidx⟩
  refine ⟨overlay (normTrace points layers n_layers zgap) (fun _ => none),
    palettize_eq points layers n_layers zgap hv, ?_⟩
  intro k hk u v w hd
  rw [overlay_none] at hd
  have hdec : decide (n_layers = 0 ∨ layers.length ≤ n_layers) = false := by
    rw [decide_eq_false_iff_not]
    rintro (h | h) <;> omega
  simp only [normTrace] at hd
  rw [hdec, if_pos hpos, traceLayers_false_flat] at hd
  obtain ⟨u', v', hget⟩ := traceIdxs_false_getD (projNorm (axes points.headI.length)) zgap
    (points.map (List.map (fun f => f ^ (if 3 < points.headI.length then (2 : ℝ) else 1))))
    ((points.length : ℝ) / (n_layers : ℝ)) layers.flatten 0 0 0 k hk
  have hment : (traceIdxs (projNorm (axes points.headI.length)) false
      (some ((points.length : ℝ) / (n_layers : ℝ))) zgap
      (points.map (List.map (fun f => f ^ (if 3 < points.headI.length then (2 : ℝ) else 1))))
      layers.flatten 0 0 0).getD k (0, 0, 0, 0)
      ∈ traceIdxs (projNorm (axes points.headI.length)) false
        (some ((points.length : ℝ) / (n_layers : ℝ))) zgap
        (points.map
          (List.map (fun f => f ^ (if 3 < points.headI.length then (2 : ℝ) else 1))))
        layers.flatten 0 0 0 := by
    refine getD_mem _ _ k ?_
    rw [traceIdxs_length]
    exact hk
  rw [hget] at hment
  have hfst := traceIdxs_map_fst (projNorm (axes points.headI.length)) false
    (some ((points.length : ℝ) / (n_layers : ℝ))) zgap
    (points.map (List.map (fun f => f ^ (if 3 < points.headI.length then (2 : ℝ) else 1))))
    layers.flatten 0 0 0
  have hnd2 : ((traceIdxs (projNorm (axes points.headI.length)) false
      (some ((points.length : ℝ) / (n_layers : ℝ))) zgap
      (points.map (List.map (fun f => f ^ (if 3 < points.headI.length then (2 : ℝ) else 1))))
      layers.flatten 0 0 0).map Prod.fst).Nodup := by
    rw [hfst]
    exact hnd
  have hlast := lastAssoc_nodup _ hnd2 (layers.flatten.getD k 0) _ hment
  have hinj := Option.some.inj (hd.symm.trans hlast)
  have hw := congrArg (fun t : ℝ × ℝ × ℝ => t.2.2) hinj
  simp only at hw
  rw [hw]
  ring

/-- Witness for C3: four points in two natural layers compressed into
`nLayers = 1` bucket. -/
theorem palettize_wc_depth_witness :
    ∃ d, palettize [[(1 : ℝ), 1], [1, 1], [1, 1], [1, 1]] [[0, 1], [2, 3]] 1 1 = some d ∧
      ∀ (k : ℕ), k < ([[0, 1], [2, 3]] : List (List ℕ)).flatten.length →
        ∀ u v w, d (([[0, 1], [2, 3]] : List (List ℕ)).flatten.getD k 0) = some (u, v, w) →
          w = -(1 * ((decsFrom ((([[(1 : ℝ), 1], [1, 1], [1, 1], [1, 1]]
            : List Point).length : ℝ) / ((1 : ℕ) : ℝ)) 0 k : ℕ) : ℝ)) := by
  refine palettize_wc_depth [[(1 : ℝ), 1], [1, 1], [1, 1], [1, 1]] [[0, 1], [2, 3]] 1 1
    (by simp) ?_ ?_ (by decide) (by norm_num) (by norm_num)
  · intro p hp
    rcases List.mem_cons.mp hp with rfl | hp
    · rfl
    · rcases List.mem_cons.mp hp with rfl | hp
      · rfl
      · rcases List.mem_cons.mp hp with rfl | hp
        · rfl
        · rcases List.mem_cons.mp hp with rfl | hp
          · rfl
          · simp at hp
  · intro layer hl idx hi
    rcases List.mem_cons.mp hl with rfl | hl
    · rcases List.mem_cons.mp hi with rfl | hi
      · norm_num
      · rcases List.mem_cons.mp hi with rfl | hi
        · norm_num
        · simp at hi
    · rcases List.mem_cons.mp hl with rfl | hl
      · rcases List.mem_cons.mp hi with rfl | hi
        · norm_num
        · rcases List.mem_cons.mp hi with rfl | hi
          · norm_num
          · simp at hi
      · simp at hl

lemma projNorm_map_mul (S : List (ℝ × ℝ)) (g : List ℝ) (c : ℝ) (hc : 0 < c)
    (hsum : 0 < g.sum) :
    projNorm S (g.map (fun x => c * x)) = projNorm S g := by
  have hsum2 : (g.map (fun x => c * x)).sum = c * g.sum := sum_map_mul_c c g
  have hpos2 : 0 < (g.map (fun x => c * x)).sum := by
    rw [hsum2]
    exact mul_pos hc hsum
  simp only [projNorm]
  rw [if_pos hpos2, if_pos hsum, hsum2, zipWith_fst_map_mul, zipWith_snd_map_mul,
    mul_div_mul_left _ _ (ne_of_gt hc), mul_div_mul_left _ _ (ne_of_gt hc)]

lemma map_mul_rpow (pt : List ℝ) (k pfac : ℝ) (hk : 0 ≤ k) (hnn : ∀ x ∈ pt, 0 ≤ x) :
    (pt.map (fun x => k * x)).map (fun f => f ^ pfac)
      = (pt.map (fun f => f ^ pfac)).map (fun x => k ^ pfac * x) := by
  simp only [List.map_map]
  refine List.map_congr_left ?_
  intro x hx
  simp only [Function.comp_apply]
  exact Real.mul_rpow hk (hnn x hx)

/-- Claim C5: for a point with non-negative coordinates whose preprocessed
coordinate sum is positive, and any positive scalar `k`, the normalized
(default) variant assigns the point scaled by `k` (every coordinate
multiplied by `k`) the same `(u, v)` as it assigns the original point, in
exact real arithmetic. -/
theorem palettize_scale_invariant (points : List Point) (layers : List (List ℕ))
    (n_layers : ℕ) (zgap : ℝ) (k : ℝ) (hk : 0 < k)
    (hne : points ≠ [])
    (hlen : ∀ p ∈ points, p.length = points.headI.length)
    (hidx : ∀ layer ∈ layers, ∀ i ∈ layer, i < points.length)
    (idx : ℕ) (hmem : idx ∈ layers.flatten)
    (hnn : ∀ x ∈ points.getD idx [], 0 ≤ x)
    (hsum : 0 < ((points.getD idx []).map
      (fun f => f ^ (if 3 < points.headI.length then (2 : ℝ) else 1))).sum) :
    ∃ u v w w',
      (∃ d, palettize points layers n_layers zgap = some d ∧ d idx = some (u, v, w)) ∧
      (∃ d', palettize (points.map (List.map (fun x => k * x))) layers n_layers zgap
          = some d' ∧ d' idx = some (u, v, w')) := by
  have hv : validInput points layers := ⟨hne, hlen, hidx⟩
  have hm' : (points.map (List.map (fun x => k * x))).headI.length
      = points.headI.length := by
    cases points with
    | nil => exact absurd rfl hne
    | cons p ps => simp
  have hne' : points.map (List.map (fun x => k * x)) ≠ [] := by
    cases points with
    | nil => exact absurd rfl hne
    | cons p ps => simp
  have hlen' : ∀ p ∈ points.map (List.map (fun x => k * x)),
      p.length = (points.map (List.map (fun x => k * x))).headI.length := by
    intro p hp
    obtain ⟨q, hq, rfl⟩ := List.mem_map.mp hp
    rw [hm', List.length_map]
    exact hlen q hq
  have hidx' : ∀ layer ∈ layers, ∀ i ∈ layer,
      i < (points.map (List.map (fun x => k * x))).length := by
    intro layer hl i hi
    rw [List.length_map]
    exact hidx layer hl i hi
  have hv' : validInput (points.map (List.map (fun x => k * x))) layers :=
    ⟨hne', hlen', hidx'⟩
  have hlt : idx < points.length := by
    obtain ⟨layer, hl, hi⟩ := List.mem_flatten.mp hmem
    exact hidx layer hl idx hi
  have hks := (overlay_none_keyset (normTrace points layers n_layers zgap) layers.flatten
    (normTrace_map_fst points layers n_layers zgap) idx).mpr hmem
  obtain ⟨⟨u, v, w⟩, hc⟩ := Option.isSome_iff_exists.mp hks
  have hks' := (overlay_none_keyset
    (normTrace (points.map (List.map (fun x => k * x))) layers n_layers zgap) layers.flatten
    (normTrace_map_fst (points.map (List.map (fun x => k * x))) layers n_layers zgap)
    idx).mpr hmem
  obtain ⟨⟨u', v', w'⟩, hc'⟩ := Option.isSome_iff_exists.mp hks'
  have hd1 := hc
  rw [overlay_none] at hd1
  have hmem1 := lastAssoc_mem _ idx (u, v, w) hd1
  simp only [normTrace] at hmem1
  have huv := traceLayers_uv (projNorm (axes points.headI.length)) _ _ zgap _
    layers 0 0 0 (idx, u, v, w) hmem1
  have hgd : (points.map (List.map
      (fun f => f ^ (if 3 < points.headI.length then (2 : ℝ) else 1)))).getD idx []
      = (points.getD idx []).map
        (fun f => f ^ (if 3 < points.headI.length then (2 : ℝ) else 1)) :=
    getD_map_of_lt _ [] [] points idx hlt
  rw [hgd] at huv
  have hd2 := hc'
  rw [overlay_none] at hd2
  have hmem2 := lastAssoc_mem _ idx (u', v', w') hd2
  simp only [normTrace] at hmem2
  rw [hm'] at hmem2
  simp only [List.length_map] at hmem2
  have huv' := traceLayers_uv (projNorm (axes points.headI.length)) _ _ zgap _
    layers 0 0 0 (idx, u', v', w') hmem2
  have hlt' : idx < (points.map (List.map (fun x => k * x))).length := by
    rw [List.length_map]
    exact hlt
  have hgd2 : ((points.map (List.map (fun x => k * x))).map (List.map
      (fun f => f ^ (if 3 < points.headI.length then (2 : ℝ) else 1)))).getD idx []
      = ((points.map (List.map (fun x => k * x))).getD idx []).map
        (fun f => f ^ (if 3 < points.headI.length then (2 : ℝ) else 1)) :=
    getD_map_of_lt _ [] [] (points.map (List.map (fun x => k * x))) idx hlt'
  have hgdk : (points.map (List.map (fun x => k * x))).getD idx []
      = (points.getD idx []).map (fun x => k * x) :=
    getD_map_of_lt _ [] [] points idx hlt
  rw [hgd2, hgdk] at huv'
  have hmm := map_mul_rpow (points.getD idx []) k
    (if 3 < points.headI.length then (2 : ℝ) else 1) hk.le hnn
  rw [hmm] at huv'
  have hc0 : (0 : ℝ) < k ^ (if 3 < points.headI.length then (2 : ℝ) else 1) :=
    Real.rpow_pos_of_pos hk _
  have hproj := projNorm_map_mul (axes points.headI.length)
    ((points.getD idx []).map
      (fun f => f ^ (if 3 < points.headI.length then (2 : ℝ) else 1)))
    (k ^ (if 3 < points.headI.length then (2 : ℝ) else 1)) hc0 hsum
  rw [hproj] at huv'
  have hu : u' = u := huv'.1.trans huv.1.symm
  have hv2 : v' = v := huv'.2.trans huv.2.symm
  refine ⟨u, v, w, w',
    ⟨_, palettize_eq points layers n_layers zgap hv, hc⟩,
    ⟨_, palettize_eq (points.map (List.map (fun x => k * x))) layers n_layers zgap hv', ?_⟩⟩
  rw [hc', hu, hv2]

/-- Witness for C5 at `points = [[1,1]]`, `k = 2`. -/
theorem palettize_scale_invariant_witness :
    ∃ u v w w',
      (∃ d, palettize [[(1 : ℝ), 1]] [[0]] 0 1 = some d ∧ d 0 = some (u, v, w)) ∧
      (∃ d', palettize ([[(1 : ℝ), 1]].map (List.map (fun x => 2 * x))) [[0]] 0 1
          = some d' ∧ d' 0 = some (u, v, w')) := by
  refine palettize_scale_invariant [[(1 : ℝ), 1]] [[0]] 0 1 2 (by norm_num)
    (by simp) ?_ ?_ 0 (by decide) ?_ ?_
  · intro p hp
    rcases List.mem_cons.mp hp with rfl | hp
    · rfl
    · simp at hp
  · intro layer hl i hi
    rcases List.mem_cons.mp hl with rfl | hl
    · rcases List.mem_cons.mp hi with rfl | hi
      · norm_num
      · simp at hi
    · simp at hl
  · intro x hx
    rcases List.mem_cons.mp hx with rfl | hx
    · norm_num
    · rcases List.mem_cons.mp hx with rfl | hx
      · norm_num
      · simp at hx
  · norm_num [Real.rpow_one]

end Viz
